import Mathlib

/-!
Verification of the tavla core against its specification.

This file embeds the two core subsystems of the tavla library:

* the markup tokenizer (`src/token.rs`): `PauseDuration`, `Token`, `Style`,
  `Tokenizer` and its `next` step, modelled over `List Char` (Rust string
  slices are always split at char boundaries, so a char-list model is exact);
* the process-backed speech handle (`src/child.rs`): the `State` machine
  (`Running`/`Done`/`Cancelled`), `update`, `exited_successfully`, `cancel`
  with its exponential-backoff grace period, and the `Speech` wrapper
  operations `is_done`, `await_done`, `cancel`.

Rust panics (`expect`, `unreachable!`) are modelled by the `PanicOr.panic`
outcome; typed `Result` errors by `Except Error`.  Interactions with the
operating system (`Child::try_wait`, `Child::kill`, `Mutex::try_lock`) are
modelled by explicit oracle parameters: a list of `TryWaitRes` poll
responses, a `KillRes`, and a `Bool` saying whether `try_lock` succeeds.
-/

/-- Outcome of a Rust computation that can panic (`expect` / `unreachable!`).
A `panic` aborts the surrounding thread; `ok` is a normal return. -/
inductive PanicOr (α : Type) where
  | panic : PanicOr α
  | ok (value : α) : PanicOr α
deriving DecidableEq

namespace Tavla

/-! ## Tokenizer data model (src/token.rs) -/

/-- Mirrors `enum PauseDuration` in src/token.rs. -/
inductive PauseDuration where
  | Sentence : PauseDuration
  | Paragraph : PauseDuration
  | Seconds (n : Nat) : PauseDuration
deriving DecidableEq

/-- Mirrors `enum Token<'a>` in src/token.rs; the borrowed `&str` spans are
modelled as `List Char`. -/
inductive Token where
  | Normal (text : List Char) : Token
  | Emphasised (text : List Char) : Token
  | Pause (duration : PauseDuration) : Token
deriving DecidableEq

/-- Mirrors `enum Style` in src/token.rs. -/
inductive Style where
  | Unemphasised : Style
  | Emphasised : Style
deriving DecidableEq

/-- Mirrors `Style::flip` in src/token.rs. -/
def Style.flip : Style → Style
  | .Unemphasised => .Emphasised
  | .Emphasised => .Unemphasised

/-- Mirrors `Token::new(text, style)` in src/token.rs. -/
def Token.new (text : List Char) (style : Style) : Token :=
  match style with
  | .Emphasised => Token.Emphasised text
  | .Unemphasised => Token.Normal text

/-- Mirrors `PauseDuration::from(period_count, newline_count)` in
src/token.rs (named `fromCounts` because `from` is reserved in Lean).
The catch-all arm is `Seconds((n - 2) as u32)`: `n` is a `usize` count
(never wrapping itself, as it is bounded by the input length), the
subtraction cannot underflow since the arm is reached only for `n ≥ 3`,
but the `as u32` cast truncates the result modulo `2 ^ 32`. -/
def PauseDuration.fromCounts (periodCount : Nat) (newlineCount : Nat) :
    Option PauseDuration :=
  if 1 < newlineCount ∧ periodCount < 2 then
    some PauseDuration.Paragraph
  else
    match periodCount with
    | 0 => none
    | 1 => some PauseDuration.Sentence
    | 2 => some PauseDuration.Paragraph
    | n => some (PauseDuration.Seconds ((n - 2) % 2 ^ 32))

/-- Rust `char::is_whitespace`: the Unicode White_Space property, spelled out
(used by the `c.is_whitespace()` stop test and by `str::trim_end`). -/
def rustIsWhitespace (c : Char) : Bool :=
  (0x09 ≤ c.toNat ∧ c.toNat ≤ 0x0D) ∨ c.toNat = 0x20 ∨ c.toNat = 0x85 ∨
    c.toNat = 0xA0 ∨ c.toNat = 0x1680 ∨
    (0x2000 ≤ c.toNat ∧ c.toNat ≤ 0x200A) ∨ c.toNat = 0x2028 ∨
    c.toNat = 0x2029 ∨ c.toNat = 0x202F ∨ c.toNat = 0x205F ∨
    c.toNat = 0x3000

/-- Characters consumed by the leading-pause scan in
`Tokenizer::consume_leading_pause`: periods, newlines, and any other
whitespace (the scan stops at the first character that is none of these). -/
def pauseRunChar (c : Char) : Bool :=
  c = '.' ∨ c = '\n' ∨ rustIsWhitespace c

/-- Characters on which `Tokenizer::consume_text` stops scanning:
`'_' | '.' | '\n'`. -/
def isDelim (c : Char) : Bool :=
  c = '_' ∨ c = '.' ∨ c = '\n'

/-- Mirrors the scan inside `Tokenizer::consume_leading_pause`: consume the
maximal prefix of periods, newlines and other whitespace; return the number
of periods and of newlines seen in that prefix, and the unconsumed rest. -/
def consumeLeadingPause (l : List Char) : Nat × Nat × List Char :=
  ((l.takeWhile pauseRunChar).count '.',
   (l.takeWhile pauseRunChar).count '\n',
   l.dropWhile pauseRunChar)

/-- Mirrors `str::trim_end`: remove trailing Unicode whitespace. -/
def trimEnd (l : List Char) : List Char :=
  (l.reverse.dropWhile rustIsWhitespace).reverse

/-- Mirrors `struct Tokenizer<'a>`: the unconsumed remainder and the current
emphasis style.  `Tokenizer::new(source)` is `⟨source, .Unemphasised⟩`. -/
structure Tokenizer where
  rest : List Char
  style : Style
deriving DecidableEq

/-- Mirrors `Tokenizer::consume_leading_pause` as a whole: consume the
leading pause run and return the optional pause token together with the new
remainder. -/
def leadingPauseToken (l : List Char) : Option Token × List Char :=
  ((PauseDuration.fromCounts (consumeLeadingPause l).1
      (consumeLeadingPause l).2.1).map Token.Pause,
   (consumeLeadingPause l).2.2)

/-- Mirrors `<Tokenizer as Iterator>::next`, inlining `consume_token`,
`consume_leading_pause` (via `leadingPauseToken`) and `consume_text`.
The `unreachable!` branch of `consume_text` (a pause construct at position
zero after the leading-pause scan) is the `.panic` outcome.  The `'_'`
branch flips the style, drops the delimiter and recurses into `next`,
exactly as the source does. -/
def Tokenizer.next (t : Tokenizer) : PanicOr (Option Token × Tokenizer) :=
  match hr : t.rest with
  | [] => .ok (none, t)
  | c0 :: rest0 =>
    match hlp : leadingPauseToken (c0 :: rest0) with
    | (some tok, r) => .ok (some tok, ⟨r, t.style⟩)
    | (none, r) =>
      -- consume_text on the remainder r
      match hs : r.dropWhile (fun c => !isDelim c) with
      | [] =>
        -- no state change: the text is the whole remainder, trimmed
        let text := trimEnd r
        if text = [] then .ok (none, ⟨[], t.style⟩)
        else .ok (some (Token.new text t.style), ⟨[], t.style⟩)
      | c :: rs =>
        if hpre : r.takeWhile (fun c => !isDelim c) = [] then
          if c = '_' then
            Tokenizer.next ⟨rs, t.style.flip⟩
          else
            -- unreachable!("consume_leading_pause should have consumed
            -- leading whitespace")
            .panic
        else
          .ok (some (Token.new (trimEnd (r.takeWhile (fun c => !isDelim c)))
                 t.style),
               ⟨c :: rs, t.style⟩)
termination_by t.rest.length
decreasing_by
  simp_wf
  have h2 : (leadingPauseToken (c0 :: rest0)).2 = r := congrArg Prod.snd hlp
  simp only [leadingPauseToken, consumeLeadingPause] at h2
  have h3 : (c :: rs).length ≤ r.length := by
    rw [← hs]; exact (List.dropWhile_sublist _).length_le
  have h4 : r.length ≤ (c0 :: rest0).length := by
    rw [← h2]; exact (List.dropWhile_sublist _).length_le
  rw [hr]
  simp only [List.length_cons] at h3 h4 ⊢
  omega

/-- The iterator driver (Rust `Iterator` consumption, e.g. `collect`):
repeatedly call `next` until it yields no token.  The fuel argument only
bounds the number of steps; `tokenize` always supplies enough fuel, and the
theorems below prove the result is fuel-independent from
`rest.length + 1` upward (each emitted token strictly consumes input). -/
def collectTokens : Nat → Tokenizer → PanicOr (List Token)
  | 0, _ => .ok []
  | fuel + 1, t =>
    match t.next with
    | .panic => .panic
    | .ok (none, _) => .ok []
    | .ok (some tok, t') =>
      match collectTokens fuel t' with
      | .panic => .panic
      | .ok toks => .ok (tok :: toks)

/-- The public `tokenize(text)` operation: run a fresh unemphasised
tokenizer over the whole input. -/
def tokenize (s : List Char) : PanicOr (List Token) :=
  collectTokens (s.length + 1) ⟨s, Style.Unemphasised⟩

/-- Fuel-indexed mirror of `Tokenizer.next`, structurally recursive so that
concrete inputs evaluate inside `decide`/`rfl`.  Equal to `Tokenizer.next`
whenever `t.rest.length < fuel` (proved below). -/
def Tokenizer.nextFuel : Nat → Tokenizer → PanicOr (Option Token × Tokenizer)
  | 0, _ => .panic
  | fuel + 1, t =>
    match t.rest with
    | [] => .ok (none, t)
    | c0 :: rest0 =>
      match leadingPauseToken (c0 :: rest0) with
      | (some tok, r) => .ok (some tok, ⟨r, t.style⟩)
      | (none, r) =>
        match r.dropWhile (fun c => !isDelim c) with
        | [] =>
          let text := trimEnd r
          if text = [] then .ok (none, ⟨[], t.style⟩)
          else .ok (some (Token.new text t.style), ⟨[], t.style⟩)
        | c :: rs =>
          if r.takeWhile (fun c => !isDelim c) = [] then
            if c = '_' then
              Tokenizer.nextFuel fuel ⟨rs, t.style.flip⟩
            else
              .panic
          else
            .ok (some (Token.new
                   (trimEnd (r.takeWhile (fun c => !isDelim c))) t.style),
                 ⟨c :: rs, t.style⟩)

/-- Fuel-indexed mirror of `collectTokens`, calling `Tokenizer.nextFuel`
with self-sufficient fuel, so it evaluates inside `decide`/`rfl`. -/
def collectFuel : Nat → Tokenizer → PanicOr (List Token)
  | 0, _ => .ok []
  | fuel + 1, t =>
    match Tokenizer.nextFuel (t.rest.length + 1) t with
    | .panic => .panic
    | .ok (none, _) => .ok []
    | .ok (some tok, t') =>
      match collectFuel fuel t' with
      | .panic => .panic
      | .ok toks => .ok (tok :: toks)

/-! ## Lossless-coverage relation (formalizing spec §8, claim C7)

`droppable` are the characters tokenization may omit from token texts: the
pause delimiters `'.'` and `'\n'`, the emphasis delimiter `'_'`, and
whitespace.  `Chunks toks s` says `s` splits into alternating runs of
droppable characters and the token texts, in emission order — so the
concatenated texts reproduce `s` with only delimiters and separator
whitespace removed, each text a contiguous verbatim span of `s`. -/

/-- Characters tokenization may drop: delimiters and whitespace. -/
def droppable (c : Char) : Bool :=
  c = '.' ∨ c = '\n' ∨ c = '_' ∨ rustIsWhitespace c

/-- The text span carried by a token (empty for pauses). -/
def Token.text : Token → List Char
  | Token.Normal t => t
  | Token.Emphasised t => t
  | Token.Pause _ => []

/-- Text carried by an optional token. -/
def optText : Option Token → List Char
  | none => []
  | some tok => tok.text

/-- `Chunks toks s`: the input `s` is exactly an alternation of droppable
runs and the texts of `toks`, in order. -/
inductive Chunks : List Token → List Char → Prop where
  | nil (d : List Char) (hd : ∀ c ∈ d, droppable c = true) : Chunks [] d
  | cons (d : List Char) (hd : ∀ c ∈ d, droppable c = true) (tok : Token)
      (toks : List Token) (rest : List Char) (h : Chunks toks rest) :
      Chunks (tok :: toks) (d ++ tok.text ++ rest)

/-! ## Process-backed speech handle (src/child.rs)

The `Child` process handle is modelled by oracle parameters: each
`Child::try_wait` call consumes the next element of a `List TryWaitRes`
(an empty list behaves as an endless `stillRunning`), `Child::kill` is a
`KillRes`, and `Mutex::try_lock` success is a `Bool`.  Sleeps
(`AWAIT_DONE_CHECK_INTERVAL`, the backoff slices) have no observable
in-memory effect and are not modelled beyond the wait-budget arithmetic. -/

/-- Mirrors `std::process::ExitStatus`, reduced to the only observation the
code makes of it, `ExitStatus::success`. -/
structure ExitStatus where
  success : Bool
deriving DecidableEq

/-- Oracle outcome of one `Child::try_wait` call. -/
inductive TryWaitRes where
  | ioError : TryWaitRes
  | stillRunning : TryWaitRes
  | exited (status : ExitStatus) : TryWaitRes
deriving DecidableEq

/-- Oracle outcome of `Child::kill`. -/
inductive KillRes where
  | ioError : KillRes
  | ok : KillRes
deriving DecidableEq

/-- Mirrors `enum State` in src/child.rs (the `Child` payload of `Running`
lives in the oracle). -/
inductive State where
  | Running : State
  | Done (status : ExitStatus) : State
  | Cancelled : State
deriving DecidableEq

/-- Mirrors `enum Error` in src/child.rs (`err` module): `CannotAwait`,
`ExitFailure`, `CannotCancel`, `CancelIgnored` (backtrace/cause payloads
dropped; the `ExitStatus` payload kept). -/
inductive Error where
  | CannotAwait : Error
  | ExitFailure (status : ExitStatus) : Error
  | CannotCancel : Error
  | CancelIgnored : Error
deriving DecidableEq

deriving instance DecidableEq for Except

/-- Mirrors `CANCEL_GRACE_TIMEOUT` (300 ms), in milliseconds. -/
def CANCEL_GRACE_TIMEOUT : Nat := 300

/-- Mirrors `CANCEL_GRACE_WAIT_SLICE_BASE.powi(attempt).round() as u64`
with base 2.3, computed in exact rational arithmetic:
`round(2.3 ^ attempt) = ⌊(2·23^a + 10^a) / (2·10^a)⌋` (round half away
from zero, positive argument).  For every attempt the loop can reach
before the 300 ms ceiling (attempts 1–7, values 2, 5, 12, 28, 64, 148,
340) this agrees with the `f64` computation in the source. -/
def wantedWaitTime (attempt : Nat) : Nat :=
  (2 * 23 ^ attempt + 10 ^ attempt) / (2 * 10 ^ attempt)

/-- Mirrors `State::update` (which inlines `State::close`): when `Running`,
poll the child once; an `Err` from `try_wait` hits
`expect("Failed to obtain check if child process has exited")`, i.e.
panics.  Terminal states do not poll.  Returns the new state and the
unconsumed oracle responses. -/
def State.update : State → List TryWaitRes → PanicOr (State × List TryWaitRes)
  | State.Running, polls =>
    match polls.headD TryWaitRes.stillRunning with
    | .ioError => .panic
    | .stillRunning => .ok (State.Running, polls.tail)
    | .exited status => .ok (State.Done status, polls.tail)
  | s, polls => .ok (s, polls)

/-- Mirrors `State::exited_successfully`. -/
def State.exitedSuccessfully : State → Except Error Bool
  | State.Running => .ok false
  | State.Done status =>
    if status.success then .ok true
    else .error (Error.ExitFailure status)
  | State.Cancelled => .ok true

/-- Mirrors the backoff loop `for attempt in 1..` inside `State::cancel`.
`remaining = none` models `remaining_wait_time = None` (budget exhausted);
the bottom `match self` of a Rust iteration is the head of the next
recursive call, which is equivalent because terminal states return
immediately. -/
def State.cancelLoop :
    State → List TryWaitRes → Nat → Option Nat →
      PanicOr (Except Error Unit × State)
  | State.Cancelled, _, _, _ => .ok (.ok (), State.Cancelled)
  | State.Done _, _, _, _ => .ok (.ok (), State.Cancelled)
  | State.Running, polls, attempt, remaining =>
    match remaining with
    | none => .ok (.error Error.CancelIgnored, State.Running)
    | some current =>
      match State.update State.Running polls with
      | .panic => .panic
      | .ok (s', polls') =>
        State.cancelLoop s' polls' (attempt + 1)
          (if current ≤ wantedWaitTime attempt then none
           else some (current - wantedWaitTime attempt))
termination_by s polls attempt remaining =>
  match remaining with
  | none => 0
  | some r => r + 1
decreasing_by
  simp_wf
  have hw : 1 ≤ wantedWaitTime attempt := by
    rw [wantedWaitTime]
    have h23 : 10 ^ attempt ≤ 23 ^ attempt :=
      Nat.pow_le_pow_left (by omega) attempt
    have h10 : 0 < 10 ^ attempt := Nat.pos_pow_of_pos attempt (by omega)
    rw [Nat.le_div_iff_mul_le (by omega)]
    omega
  by_cases hcase : current ≤ wantedWaitTime attempt
  · simp [hcase]
  · simp only [hcase, if_false]
    omega

/-- Mirrors `State::cancel`: update; if still `Running`, kill (an `Err`
from `kill` hits `expect("Failed to send termination signal to child")`,
i.e. panics) and update again; then run the grace-period loop with a fresh
300 ms budget. -/
def State.cancel (killRes : KillRes) (s : State) (polls : List TryWaitRes) :
    PanicOr (Except Error Unit × State) :=
  match State.update s polls with
  | .panic => .panic
  | .ok (s1, polls1) =>
    match s1 with
    | State.Running =>
      match killRes with
      | .ioError => .panic
      | .ok =>
        match State.update State.Running polls1 with
        | .panic => .panic
        | .ok (s2, polls2) =>
          State.cancelLoop s2 polls2 1 (some CANCEL_GRACE_TIMEOUT)
    | _ => State.cancelLoop s1 polls1 1 (some CANCEL_GRACE_TIMEOUT)

/-- Mirrors `<Speech as crate::Speech>::is_done`: `try_lock` failure hits
`expect("Failed to obtain lock on child process")`, i.e. panics; otherwise
update once and report `exited_successfully`.  Returns the operation
result and the state left behind the lock. -/
def Speech.isDone (lockFree : Bool) (poll : TryWaitRes) (s : State) :
    PanicOr (Except Error Bool × State) :=
  if lockFree then
    match State.update s [poll] with
    | .panic => .panic
    | .ok (s', _) => .ok (s'.exitedSuccessfully, s')
  else .panic

/-- Mirrors `<Speech as crate::Speech>::cancel`: `try_lock` failure panics
via `expect`, otherwise delegate to `State::cancel`. -/
def Speech.cancel (lockFree : Bool) (killRes : KillRes)
    (polls : List TryWaitRes) (s : State) :
    PanicOr (Except Error Unit × State) :=
  if lockFree then State.cancel killRes s polls else .panic

/-- Mirrors `<Speech as crate::Speech>::await_done`: repeatedly `is_done`
(each iteration takes a fresh `try_lock` outcome and poll response from
`env`), sleeping between checks; stops on `true` or on an error.  The fuel
bounds the number of iterations observed; `(none, s)` means the loop was
still polling when the fuel ran out. -/
def Speech.awaitDone :
    Nat → List (Bool × TryWaitRes) → State →
      PanicOr (Option (Except Error Unit) × State)
  | 0, _, s => .ok (none, s)
  | fuel + 1, env, s =>
    match Speech.isDone (env.headD (true, TryWaitRes.stillRunning)).1
        (env.headD (true, TryWaitRes.stillRunning)).2 s with
    | .panic => .panic
    | .ok (.error e, s') => .ok (some (.error e), s')
    | .ok (.ok true, s') => .ok (some (.ok ()), s')
    | .ok (.ok false, s') => Speech.awaitDone fuel env.tail s'

/-- One public operation on a `Speech` handle, with its oracle inputs. -/
inductive Op where
  | isDone (lockFree : Bool) (poll : TryWaitRes) : Op
  | awaitDone (fuel : Nat) (env : List (Bool × TryWaitRes)) : Op
  | cancel (lockFree : Bool) (killRes : KillRes)
      (polls : List TryWaitRes) : Op

/-- Run one operation, keeping only the state it leaves behind the lock. -/
def runOp (s : State) : Op → PanicOr State
  | Op.isDone lockFree poll =>
    match Speech.isDone lockFree poll s with
    | .panic => .panic
    | .ok (_, s') => .ok s'
  | Op.awaitDone fuel env =>
    match Speech.awaitDone fuel env s with
    | .panic => .panic
    | .ok (_, s') => .ok s'
  | Op.cancel lockFree killRes polls =>
    match Speech.cancel lockFree killRes polls s with
    | .panic => .panic
    | .ok (_, s') => .ok s'

/-- Run a sequence of operations on one handle (a panic aborts the run). -/
def runOps : State → List Op → PanicOr State
  | s, [] => .ok s
  | s, op :: ops =>
    match runOp s op with
    | .panic => .panic
    | .ok s' => runOps s' ops

/-- Fuel-indexed mirror of `State.cancelLoop`, structurally recursive so
that concrete inputs evaluate inside `decide`; equal to `State.cancelLoop`
whenever the remaining budget is below the fuel (proved below). -/
def cancelLoopFuel :
    Nat → State → List TryWaitRes → Nat → Option Nat →
      PanicOr (Except Error Unit × State)
  | 0, _, _, _, _ => .panic
  | fuel + 1, s, polls, attempt, remaining =>
    match s with
    | State.Cancelled => .ok (.ok (), State.Cancelled)
    | State.Done _ => .ok (.ok (), State.Cancelled)
    | State.Running =>
      match remaining with
      | none => .ok (.error Error.CancelIgnored, State.Running)
      | some current =>
        match State.update State.Running polls with
        | .panic => .panic
        | .ok (s', polls') =>
          cancelLoopFuel fuel s' polls' (attempt + 1)
            (if current ≤ wantedWaitTime attempt then none
             else some (current - wantedWaitTime attempt))

/-- Mirror of `State.cancel` built on `cancelLoopFuel` (302 is enough fuel
for the whole 300 ms budget), for concrete evaluation. -/
def cancelFuel (killRes : KillRes) (s : State) (polls : List TryWaitRes) :
    PanicOr (Except Error Unit × State) :=
  match State.update s polls with
  | .panic => .panic
  | .ok (s1, polls1) =>
    match s1 with
    | State.Running =>
      match killRes with
      | .ioError => .panic
      | .ok =>
        match State.update State.Running polls1 with
        | .panic => .panic
        | .ok (s2, polls2) =>
          cancelLoopFuel (CANCEL_GRACE_TIMEOUT + 2) s2 polls2 1
            (some CANCEL_GRACE_TIMEOUT)
    | _ =>
      cancelLoopFuel (CANCEL_GRACE_TIMEOUT + 2) s1 polls1 1
        (some CANCEL_GRACE_TIMEOUT)

/-! ## Supporting lemmas: lists and characters -/

theorem dropWhile_head_not (p : Char → Bool) :
    ∀ (l : List Char) (c : Char) (rs : List Char),
      l.dropWhile p = c :: rs → p c = false := by
  intro l
  induction l with
  | nil => intro c rs h; simp [List.dropWhile] at h
  | cons a as ih =>
    intro c rs h
    rw [List.dropWhile_cons] at h
    by_cases hp : p a
    · simp [hp] at h; exact ih c rs h
    · simp [hp] at h
      obtain ⟨h1, _⟩ := h
      subst h1
      simpa using hp

theorem takeWhile_nil_head (p : Char → Bool) (c : Char) (cs : List Char)
    (h : (c :: cs).takeWhile p = []) : p c = false := by
  rw [List.takeWhile_cons] at h
  by_cases hp : p c <;> simp [hp] at h ⊢

theorem pauseRunChar_droppable (c : Char) (h : pauseRunChar c = true) :
    droppable c = true := by
  simp only [pauseRunChar, decide_eq_true_eq] at h
  simp only [droppable, decide_eq_true_eq]
  tauto

theorem ws_droppable (c : Char) (h : rustIsWhitespace c = true) :
    droppable c = true := by
  simp only [droppable, decide_eq_true_eq]
  tauto

theorem delim_not_pause_underscore (c : Char) (hd : isDelim c = true)
    (hp : pauseRunChar c = false) : c = '_' := by
  simp only [isDelim, decide_eq_true_eq] at hd
  simp only [pauseRunChar, decide_eq_false_iff_not] at hp
  tauto

/-- `str::trim_end` splits the input into the trimmed part and a trailing
all-whitespace run. -/
theorem trimEnd_decomp (l : List Char) :
    ∃ w, (∀ c ∈ w, rustIsWhitespace c = true) ∧ l = trimEnd l ++ w := by
  refine ⟨(l.reverse.takeWhile rustIsWhitespace).reverse, ?_, ?_⟩
  · intro c hc
    rw [List.mem_reverse] at hc
    exact List.mem_takeWhile_imp hc
  · rw [trimEnd, ← List.reverse_append, List.takeWhile_append_dropWhile,
      List.reverse_reverse]

theorem trimEnd_nil_all_ws (l : List Char) (h : trimEnd l = []) :
    ∀ c ∈ l, rustIsWhitespace c = true := by
  obtain ⟨w, hw, hdec⟩ := trimEnd_decomp l
  rw [h, List.nil_append] at hdec
  intro c hc
  exact hw c (hdec ▸ hc)

/-! ## Supporting lemmas: leading pause runs -/

theorem lp_rest (l : List Char) :
    (leadingPauseToken l).2 = l.dropWhile pauseRunChar := rfl

theorem lp_fst (l : List Char) :
    (leadingPauseToken l).1 =
      (PauseDuration.fromCounts ((l.takeWhile pauseRunChar).count '.')
        ((l.takeWhile pauseRunChar).count '\n')).map Token.Pause := rfl

/-- The leading-pause scan only consumes droppable characters: the input is
the consumed droppable prefix followed by the returned rest. -/
theorem lp_decomp (l : List Char) (o : Option Token) (r : List Char)
    (h : leadingPauseToken l = (o, r)) :
    ∃ d, (∀ c ∈ d, droppable c = true) ∧ l = d ++ r := by
  refine ⟨l.takeWhile pauseRunChar, ?_, ?_⟩
  · intro c hc
    exact pauseRunChar_droppable c (List.mem_takeWhile_imp hc)
  · have hr : r = l.dropWhile pauseRunChar := by
      rw [← lp_rest l, h]
    rw [hr, List.takeWhile_append_dropWhile]

theorem rec_call_length {l : List Char} {o : Option Token} {r : List Char}
    {c : Char} {rs : List Char}
    (hne : l ≠ [])
    (hlp : leadingPauseToken l = (o, r))
    (hdw : r.dropWhile (fun x => !isDelim x) = c :: rs) :
    rs.length < l.length := by
  have h2 : l.dropWhile pauseRunChar = r := by
    rw [← lp_rest l, hlp]
  have h3 : (c :: rs).length ≤ r.length := by
    rw [← hdw]; exact (List.dropWhile_sublist _).length_le
  have h4 : r.length ≤ l.length := by
    rw [← h2]; exact (List.dropWhile_sublist _).length_le
  cases l with
  | nil => exact absurd rfl hne
  | cons a as =>
    simp only [List.length_cons] at h3 h4 ⊢
    omega

/-- `PauseDuration::from` spelled as an if-chain (the final arm carries
the `as u32` truncation of the source). -/
theorem fromCounts_eq_ifs (p nl : Nat) :
    PauseDuration.fromCounts p nl =
      (if 1 < nl ∧ p < 2 then some PauseDuration.Paragraph
       else if p = 0 then none
       else if p = 1 then some PauseDuration.Sentence
       else if p = 2 then some PauseDuration.Paragraph
       else some (PauseDuration.Seconds ((p - 2) % 2 ^ 32))) := by
  match p with
  | 0 => by_cases h1 : 1 < nl <;> simp [PauseDuration.fromCounts, h1]
  | 1 => by_cases h1 : 1 < nl <;> simp [PauseDuration.fromCounts, h1]
  | 2 =>
    have h1 : ¬(1 < nl ∧ (2 : Nat) < 2) := by omega
    simp [PauseDuration.fromCounts, h1]
  | n + 3 =>
    have h1 : ¬(1 < nl ∧ n + 3 < 2) := by omega
    have h2 : ¬(n + 3 = 0) := by omega
    have h3 : ¬(n + 3 = 1) := by omega
    have h4 : ¬(n + 3 = 2) := by omega
    simp [PauseDuration.fromCounts, h1, h2, h3, h4]

/-- A pause token is only produced from a nonempty pause run: at least one
period, or at least two newlines. -/
theorem fromCounts_some_counts (p nl : Nat) (d : PauseDuration)
    (h : PauseDuration.fromCounts p nl = some d) : 1 ≤ p ∨ 2 ≤ nl := by
  rw [fromCounts_eq_ifs] at h
  by_cases h1 : 1 < nl ∧ p < 2
  · omega
  · simp only [h1, if_false] at h
    by_cases h2 : p = 0
    · simp [h2] at h
    · omega

/-- An explicit-seconds pause counts at least one second as long as the
period count stays below the `u32` wrap point `2 ^ 32 + 2` (where the
`as u32` cast would truncate `p - 2 = 2 ^ 32` to `0`). -/
theorem fromCounts_seconds_pos (p nl n : Nat) (hp : p < 2 ^ 32 + 2)
    (h : PauseDuration.fromCounts p nl = some (PauseDuration.Seconds n)) :
    1 ≤ n := by
  rw [fromCounts_eq_ifs] at h
  by_cases h1 : 1 < nl ∧ p < 2
  · simp [h1] at h
  · simp only [h1, if_false] at h
    by_cases h2 : p = 0
    · simp [h2] at h
    · by_cases h3 : p = 1
      · simp [h2, h3] at h
      · by_cases h4 : p = 2
        · simp [h2, h3, h4] at h
        · simp only [h2, h3, h4, if_false, Option.some.injEq,
            PauseDuration.Seconds.injEq] at h
          have hlt : p - 2 < 2 ^ 32 := by omega
          rw [Nat.mod_eq_of_lt hlt] at h
          omega

/-- At the `u32` wrap point the source emits `Seconds 0`: a run of
`2 ^ 32 + 2` periods maps to `Seconds ((2 ^ 32) mod 2 ^ 32) = Seconds 0`,
not to `Seconds (2 ^ 32)`. -/
theorem fromCounts_wrap :
    PauseDuration.fromCounts (2 ^ 32 + 2) 0 =
      some (PauseDuration.Seconds 0) := by
  rw [fromCounts_eq_ifs]
  norm_num

/-- When the scan yields a pause token, it consumed at least one character,
so the remainder is strictly shorter. -/
theorem pause_some_shrink (l : List Char) (tok : Token) (r : List Char)
    (h : leadingPauseToken l = (some tok, r)) : r.length < l.length := by
  have hfst := congrArg Prod.fst h
  rw [lp_fst] at hfst
  simp only at hfst
  obtain ⟨d, hd, -⟩ := Option.map_eq_some'.mp hfst
  have hcounts := fromCounts_some_counts _ _ _ hd
  have htw : l.takeWhile pauseRunChar ≠ [] := by
    intro hnil
    rw [hnil] at hcounts
    simp [List.count_nil] at hcounts
  have hr : r = l.dropWhile pauseRunChar := by rw [← lp_rest l, h]
  have hsplit : l.takeWhile pauseRunChar ++ l.dropWhile pauseRunChar = l :=
    List.takeWhile_append_dropWhile _ _
  have hlen := congrArg List.length hsplit
  rw [List.length_append] at hlen
  have : 1 ≤ (l.takeWhile pauseRunChar).length :=
    Nat.one_le_iff_ne_zero.mpr (by simpa using htw)
  rw [hr]
  omega

/-! ## Branch evaluation lemmas for `Tokenizer.next` -/

theorem next_eq_nil (t : Tokenizer) (h : t.rest = []) :
    t.next = .ok (none, t) := by
  rw [Tokenizer.next.eq_def]
  split
  · rfl
  · rename_i c0 rest0 hrest
    rw [h] at hrest
    cases hrest

theorem next_eq_pause (t : Tokenizer) (tok : Token) (r : List Char)
    (hlp : leadingPauseToken t.rest = (some tok, r)) :
    t.next = .ok (some tok, ⟨r, t.style⟩) := by
  rw [Tokenizer.next.eq_def]
  split
  · rename_i hrest
    rw [hrest] at hlp
    simp [leadingPauseToken, PauseDuration.fromCounts,
      consumeLeadingPause] at hlp
  · rename_i c0 rest0 hrest
    rw [hrest] at hlp
    split
    · rename_i tok' r' heq
      rw [hlp] at heq
      simp only [Prod.mk.injEq, Option.some.injEq] at heq
      obtain ⟨h1, h2⟩ := heq
      rw [h1, h2]
    · rename_i r' heq
      rw [hlp] at heq
      simp at heq

theorem next_eq_nodelim (t : Tokenizer) (r : List Char)
    (hne : t.rest ≠ [])
    (hlp : leadingPauseToken t.rest = (none, r))
    (hdw : r.dropWhile (fun c => !isDelim c) = []) :
    t.next =
      (if trimEnd r = [] then .ok (none, ⟨[], t.style⟩)
       else .ok (some (Token.new (trimEnd r) t.style), ⟨[], t.style⟩)) := by
  rw [Tokenizer.next.eq_def]
  split
  · rename_i hrest
    exact absurd hrest hne
  · rename_i c0 rest0 hrest
    rw [hrest] at hlp
    split
    · rename_i tok' r' heq
      rw [hlp] at heq
      simp at heq
    · rename_i r' heq
      rw [hlp] at heq
      simp only [Prod.mk.injEq] at heq
      obtain ⟨-, h2⟩ := heq
      subst h2
      split
      · rfl
      · rename_i c rs heq2
        rw [hdw] at heq2
        cases heq2

theorem next_eq_under (t : Tokenizer) (r : List Char) (rs : List Char)
    (hne : t.rest ≠ [])
    (hlp : leadingPauseToken t.rest = (none, r))
    (hpre : r.takeWhile (fun c => !isDelim c) = [])
    (hdw : r.dropWhile (fun c => !isDelim c) = '_' :: rs) :
    t.next = Tokenizer.next ⟨rs, t.style.flip⟩ := by
  rw [Tokenizer.next.eq_def]
  split
  · rename_i hrest
    exact absurd hrest hne
  · rename_i c0 rest0 hrest
    rw [hrest] at hlp
    split
    · rename_i tok' r' heq
      rw [hlp] at heq
      simp at heq
    · rename_i r' heq
      rw [hlp] at heq
      simp only [Prod.mk.injEq] at heq
      obtain ⟨-, h2⟩ := heq
      subst h2
      split
      · rename_i heq2
        rw [hdw] at heq2
        cases heq2
      · rename_i c' rs' heq2
        rw [hdw] at heq2
        simp only [List.cons.injEq] at heq2
        obtain ⟨h3, h4⟩ := heq2
        subst h3; subst h4
        rw [dif_pos hpre, if_pos rfl]

theorem next_eq_text (t : Tokenizer) (r : List Char) (c : Char)
    (rs : List Char)
    (hne : t.rest ≠ [])
    (hlp : leadingPauseToken t.rest = (none, r))
    (hpre : r.takeWhile (fun c => !isDelim c) ≠ [])
    (hdw : r.dropWhile (fun c => !isDelim c) = c :: rs) :
    t.next = .ok (some (Token.new
        (trimEnd (r.takeWhile (fun c => !isDelim c))) t.style),
      ⟨c :: rs, t.style⟩) := by
  rw [Tokenizer.next.eq_def]
  split
  · rename_i hrest
    exact absurd hrest hne
  · rename_i c0 rest0 hrest
    rw [hrest] at hlp
    split
    · rename_i tok' r' heq
      rw [hlp] at heq
      simp at heq
    · rename_i r' heq
      rw [hlp] at heq
      simp only [Prod.mk.injEq] at heq
      obtain ⟨-, h2⟩ := heq
      subst h2
      split
      · rename_i heq2
        rw [hdw] at heq2
        cases heq2
      · rename_i c' rs' heq2
        rw [hdw] at heq2
        simp only [List.cons.injEq] at heq2
        obtain ⟨h3, h4⟩ := heq2
        subst h3; subst h4
        rw [dif_neg hpre]

/-- Inversion principle for one tokenizer step: exactly one of the source's
branches applies; in particular the `unreachable!` branch never does (after
the leading-pause scan the remainder cannot start with a pause construct). -/
theorem next_inv (t : Tokenizer) :
    (t.rest = [] ∧ t.next = .ok (none, t)) ∨
    (∃ tok r, t.rest ≠ [] ∧ leadingPauseToken t.rest = (some tok, r) ∧
      t.next = .ok (some tok, ⟨r, t.style⟩)) ∨
    (∃ r, t.rest ≠ [] ∧ leadingPauseToken t.rest = (none, r) ∧
      r.dropWhile (fun c => !isDelim c) = [] ∧ trimEnd r = [] ∧
      t.next = .ok (none, ⟨[], t.style⟩)) ∨
    (∃ r, t.rest ≠ [] ∧ leadingPauseToken t.rest = (none, r) ∧
      r.dropWhile (fun c => !isDelim c) = [] ∧ trimEnd r ≠ [] ∧
      t.next = .ok (some (Token.new (trimEnd r) t.style), ⟨[], t.style⟩)) ∨
    (∃ r rs, t.rest ≠ [] ∧ leadingPauseToken t.rest = (none, r) ∧
      r.takeWhile (fun c => !isDelim c) = [] ∧
      r.dropWhile (fun c => !isDelim c) = '_' :: rs ∧
      t.next = Tokenizer.next ⟨rs, t.style.flip⟩) ∨
    (∃ r c rs, t.rest ≠ [] ∧ leadingPauseToken t.rest = (none, r) ∧
      r.takeWhile (fun c => !isDelim c) ≠ [] ∧
      r.dropWhile (fun c => !isDelim c) = c :: rs ∧
      t.next = .ok (some (Token.new
          (trimEnd (r.takeWhile (fun c => !isDelim c))) t.style),
        ⟨c :: rs, t.style⟩)) := by
  by_cases hne : t.rest = []
  · exact Or.inl ⟨hne, next_eq_nil t hne⟩
  · rcases hlp : leadingPauseToken t.rest with ⟨o, r⟩
    cases o with
    | some tok =>
      exact Or.inr (Or.inl ⟨tok, r, hne, rfl, next_eq_pause t tok r hlp⟩)
    | none =>
      rcases hdw : r.dropWhile (fun c => !isDelim c) with _ | ⟨c, rs⟩
      · by_cases htr : trimEnd r = []
        · refine Or.inr (Or.inr (Or.inl ⟨r, hne, rfl, hdw, htr, ?_⟩))
          rw [next_eq_nodelim t r hne hlp hdw, if_pos htr]
        · refine Or.inr (Or.inr (Or.inr (Or.inl ⟨r, hne, rfl, hdw, htr, ?_⟩)))
          rw [next_eq_nodelim t r hne hlp hdw, if_neg htr]
      · by_cases hpre : r.takeWhile (fun c => !isDelim c) = []
        · have hc : c = '_' := by
            have hrce : r = c :: rs := by
              conv_lhs => rw [← List.takeWhile_append_dropWhile
                (p := fun c => !isDelim c) (l := r)]
              rw [hpre, hdw, List.nil_append]
            have hdelim : isDelim c = true := by
              have := dropWhile_head_not (fun c => !isDelim c) r c rs hdw
              simpa using this
            have hpc : pauseRunChar c = false := by
              have hr2 : t.rest.dropWhile pauseRunChar = c :: rs := by
                rw [← lp_rest t.rest, hlp]
                exact hrce
              exact dropWhile_head_not pauseRunChar t.rest c rs hr2
            exact delim_not_pause_underscore c hdelim hpc
          subst hc
          exact Or.inr (Or.inr (Or.inr (Or.inr (Or.inl ⟨r, rs, hne, rfl,
            hpre, hdw, next_eq_under t r rs hne hlp hpre hdw⟩))))
        · exact Or.inr (Or.inr (Or.inr (Or.inr (Or.inr ⟨r, c, rs, hne, rfl,
            hpre, hdw, next_eq_text t r c rs hne hlp hpre hdw⟩))))

/-! ## Step lemmas for `Tokenizer.next` -/

theorem text_new (txt : List Char) (s : Style) :
    (Token.new txt s).text = txt := by
  cases s <;> rfl

theorem new_ne_pause (txt : List Char) (s : Style) (d : PauseDuration) :
    Token.new txt s ≠ Token.Pause d := by
  cases s <;> simp [Token.new]

theorem underscore_droppable : droppable '_' = true := by decide

/-- One tokenizer step never hits the `unreachable!` branch: `next` always
returns normally. -/
theorem next_no_panic : ∀ t : Tokenizer, ∃ o t', t.next = .ok (o, t') := by
  have H : ∀ (n : Nat) (t : Tokenizer), t.rest.length = n →
      ∃ o t', t.next = .ok (o, t') := by
    intro n
    induction n using Nat.strong_induction_on with
    | _ n ih =>
      intro t hn
      rcases next_inv t with ⟨h0, he⟩ | ⟨tok, r, hne, hlp, he⟩ |
        ⟨r, hne, hlp, hdw, htr, he⟩ | ⟨r, hne, hlp, hdw, htr, he⟩ |
        ⟨r, rs, hne, hlp, hpre, hdw, he⟩ | ⟨r, c, rs, hne, hlp, hpre, hdw, he⟩
      · exact ⟨none, t, he⟩
      · exact ⟨some tok, _, he⟩
      · exact ⟨none, _, he⟩
      · exact ⟨_, _, he⟩
      · obtain ⟨o, t', he2⟩ :=
          ih rs.length (hn ▸ rec_call_length hne hlp hdw) ⟨rs, t.style.flip⟩
            rfl
        exact ⟨o, t', he.trans he2⟩
      · exact ⟨_, _, he⟩
  intro t
  exact H t.rest.length t rfl

/-- When a step yields no token, the remainder has been fully consumed. -/
theorem next_none_rest : ∀ (t t' : Tokenizer),
    t.next = .ok (none, t') → t'.rest = [] := by
  have H : ∀ (n : Nat) (t t' : Tokenizer), t.rest.length = n →
      t.next = .ok (none, t') → t'.rest = [] := by
    intro n
    induction n using Nat.strong_induction_on with
    | _ n ih =>
      intro t t' hn h
      rcases next_inv t with ⟨h0, he⟩ | ⟨tok, r, hne, hlp, he⟩ |
        ⟨r, hne, hlp, hdw, htr, he⟩ | ⟨r, hne, hlp, hdw, htr, he⟩ |
        ⟨r, rs, hne, hlp, hpre, hdw, he⟩ | ⟨r, c, rs, hne, hlp, hpre, hdw, he⟩
      · rw [he] at h
        simp only [PanicOr.ok.injEq, Prod.mk.injEq, true_and] at h
        rw [← h]
        exact h0
      · rw [he] at h; simp at h
      · rw [he] at h
        simp only [PanicOr.ok.injEq, Prod.mk.injEq, true_and] at h
        rw [← h]
      · rw [he] at h; simp at h
      · exact ih rs.length (hn ▸ rec_call_length hne hlp hdw)
          ⟨rs, t.style.flip⟩ t' rfl (he.symm.trans h)
      · rw [he] at h; simp at h
  intro t t' h
  exact H t.rest.length t t' rfl h

/-- Each step only consumes: the remainder never grows, and it strictly
shrinks whenever there was input left. -/
theorem next_shrink : ∀ (t : Tokenizer) (o : Option Token) (t' : Tokenizer),
    t.next = .ok (o, t') →
      t'.rest.length ≤ t.rest.length ∧
      (t.rest ≠ [] → t'.rest.length < t.rest.length) := by
  have H : ∀ (n : Nat) (t : Tokenizer) (o : Option Token) (t' : Tokenizer),
      t.rest.length = n → t.next = .ok (o, t') →
        t'.rest.length ≤ t.rest.length ∧
        (t.rest ≠ [] → t'.rest.length < t.rest.length) := by
    intro n
    induction n using Nat.strong_induction_on with
    | _ n ih =>
      intro t o t' hn h
      rcases next_inv t with ⟨h0, he⟩ | ⟨tok, r, hne, hlp, he⟩ |
        ⟨r, hne, hlp, hdw, htr, he⟩ | ⟨r, hne, hlp, hdw, htr, he⟩ |
        ⟨r, rs, hne, hlp, hpre, hdw, he⟩ | ⟨r, c, rs, hne, hlp, hpre, hdw, he⟩
      · rw [he] at h
        simp only [PanicOr.ok.injEq, Prod.mk.injEq] at h
        obtain ⟨-, h2⟩ := h
        subst h2
        exact ⟨Nat.le_refl _, fun hab => absurd h0 hab⟩
      · rw [he] at h
        simp only [PanicOr.ok.injEq, Prod.mk.injEq] at h
        obtain ⟨-, h2⟩ := h
        subst h2
        have := pause_some_shrink t.rest tok r hlp
        exact ⟨Nat.le_of_lt this, fun _ => this⟩
      · rw [he] at h
        simp only [PanicOr.ok.injEq, Prod.mk.injEq] at h
        obtain ⟨-, h2⟩ := h
        subst h2
        exact ⟨Nat.zero_le _, fun _ => List.length_pos.mpr hne⟩
      · rw [he] at h
        simp only [PanicOr.ok.injEq, Prod.mk.injEq] at h
        obtain ⟨-, h2⟩ := h
        subst h2
        exact ⟨Nat.zero_le _, fun _ => List.length_pos.mpr hne⟩
      · have hrec := rec_call_length hne hlp hdw
        obtain ⟨hle, -⟩ := ih rs.length (hn ▸ hrec) ⟨rs, t.style.flip⟩ o t'
          rfl (he.symm.trans h)
        exact ⟨Nat.le_of_lt (Nat.lt_of_le_of_lt hle hrec),
          fun _ => Nat.lt_of_le_of_lt hle hrec⟩
      · rw [he] at h
        simp only [PanicOr.ok.injEq, Prod.mk.injEq] at h
        obtain ⟨-, h2⟩ := h
        subst h2
        have hr : t.rest.dropWhile pauseRunChar = r := by
          rw [← lp_rest t.rest, hlp]
        have hsplit := congrArg List.length
          (List.takeWhile_append_dropWhile (p := fun c => !isDelim c) (l := r))
        rw [List.length_append, hdw] at hsplit
        have htk : 1 ≤ (r.takeWhile (fun c => !isDelim c)).length :=
          Nat.one_le_iff_ne_zero.mpr (by simpa using hpre)
        have hrle : r.length ≤ t.rest.length := by
          rw [← hr]; exact (List.dropWhile_sublist _).length_le
        constructor
        · simp only
          omega
        · intro _
          simp only
          omega
  intro t o t' h
  exact H t.rest.length t o t' rfl h

/-- Decomposition of one step: the consumed input is a droppable run, then
the emitted token's text verbatim, then another droppable run (trailing
whitespace trimmed off the text). -/
theorem next_decomp : ∀ (t : Tokenizer) (o : Option Token) (t' : Tokenizer),
    t.next = .ok (o, t') →
      ∃ d e, (∀ c ∈ d, droppable c = true) ∧ (∀ c ∈ e, droppable c = true) ∧
        t.rest = d ++ optText o ++ e ++ t'.rest := by
  have H : ∀ (n : Nat) (t : Tokenizer) (o : Option Token) (t' : Tokenizer),
      t.rest.length = n → t.next = .ok (o, t') →
        ∃ d e, (∀ c ∈ d, droppable c = true) ∧
          (∀ c ∈ e, droppable c = true) ∧
          t.rest = d ++ optText o ++ e ++ t'.rest := by
    intro n
    induction n using Nat.strong_induction_on with
    | _ n ih =>
      intro t o t' hn h
      rcases next_inv t with ⟨h0, he⟩ | ⟨tok, r, hne, hlp, he⟩ |
        ⟨r, hne, hlp, hdw, htr, he⟩ | ⟨r, hne, hlp, hdw, htr, he⟩ |
        ⟨r, rs, hne, hlp, hpre, hdw, he⟩ | ⟨r, c, rs, hne, hlp, hpre, hdw, he⟩
      · rw [he] at h
        simp only [PanicOr.ok.injEq, Prod.mk.injEq] at h
        obtain ⟨h1, h2⟩ := h
        subst h1; subst h2
        exact ⟨[], [], by simp, by simp, by simp [optText, h0]⟩
      · rw [he] at h
        simp only [PanicOr.ok.injEq, Prod.mk.injEq] at h
        obtain ⟨h1, h2⟩ := h
        subst h1; subst h2
        have hfst := congrArg Prod.fst hlp
        rw [lp_fst] at hfst
        simp only at hfst
        obtain ⟨dur, -, hpd⟩ := Option.map_eq_some'.mp hfst
        obtain ⟨d, hd, hsplit⟩ := lp_decomp t.rest (some tok) r hlp
        refine ⟨d, [], hd, by simp, ?_⟩
        rw [hsplit, ← hpd]
        simp [optText, Token.text]
      · rw [he] at h
        simp only [PanicOr.ok.injEq, Prod.mk.injEq] at h
        obtain ⟨h1, h2⟩ := h
        subst h1; subst h2
        obtain ⟨d, hd, hsplit⟩ := lp_decomp t.rest none r hlp
        refine ⟨d, r, hd, ?_, ?_⟩
        · intro x hx
          exact ws_droppable x (trimEnd_nil_all_ws r htr x hx)
        · rw [hsplit]
          simp [optText]
      · rw [he] at h
        simp only [PanicOr.ok.injEq, Prod.mk.injEq] at h
        obtain ⟨h1, h2⟩ := h
        subst h1; subst h2
        obtain ⟨d, hd, hsplit⟩ := lp_decomp t.rest none r hlp
        obtain ⟨w, hw, hwdec⟩ := trimEnd_decomp r
        refine ⟨d, w, hd, fun x hx => ws_droppable x (hw x hx), ?_⟩
        rw [hsplit]
        conv_lhs => rw [hwdec]
        simp [optText, text_new, List.append_assoc]
      · obtain ⟨d1, e1, hd1, he1, hsplit1⟩ :=
          ih rs.length (hn ▸ rec_call_length hne hlp hdw)
            ⟨rs, t.style.flip⟩ o t' rfl (he.symm.trans h)
        obtain ⟨d0, hd0, hsplit0⟩ := lp_decomp t.rest none r hlp
        have hrce : r = '_' :: rs := by
          conv_lhs => rw [← List.takeWhile_append_dropWhile
            (p := fun c => !isDelim c) (l := r)]
          rw [hpre, hdw, List.nil_append]
        refine ⟨d0 ++ '_' :: d1, e1, ?_, he1, ?_⟩
        · intro x hx
          rcases List.mem_append.mp hx with hx0 | hx1
          · exact hd0 x hx0
          · rcases List.mem_cons.mp hx1 with hx2 | hx3
            · rw [hx2]; exact underscore_droppable
            · exact hd1 x hx3
        · rw [hsplit0, hrce]
          simp only at hsplit1
          rw [hsplit1]
          simp [List.append_assoc]
      · rw [he] at h
        simp only [PanicOr.ok.injEq, Prod.mk.injEq] at h
        obtain ⟨h1, h2⟩ := h
        subst h1; subst h2
        obtain ⟨d, hd, hsplit⟩ := lp_decomp t.rest none r hlp
        obtain ⟨w, hw, hwdec⟩ := trimEnd_decomp
          (r.takeWhile (fun c => !isDelim c))
        refine ⟨d, w, hd, fun x hx => ws_droppable x (hw x hx), ?_⟩
        rw [hsplit]
        conv_lhs => rw [← List.takeWhile_append_dropWhile
          (p := fun c => !isDelim c) (l := r), hdw]
        conv_lhs => rw [hwdec]
        simp [optText, text_new, List.append_assoc]
  intro t o t' h
  exact H t.rest.length t o t' rfl h

/-- Any explicit-seconds pause token a step emits counts at least one
second. -/
theorem next_pause_pos : ∀ (t : Tokenizer) (tok : Token) (t' : Tokenizer),
    t.next = .ok (some tok, t') → t.rest.length < 2 ^ 32 + 2 →
      ∀ n, tok = Token.Pause (PauseDuration.Seconds n) → 1 ≤ n := by
  have H : ∀ (n0 : Nat) (t : Tokenizer) (tok : Token) (t' : Tokenizer),
      t.rest.length = n0 → t.next = .ok (some tok, t') →
        t.rest.length < 2 ^ 32 + 2 →
        ∀ n, tok = Token.Pause (PauseDuration.Seconds n) → 1 ≤ n := by
    intro n0
    induction n0 using Nat.strong_induction_on with
    | _ n0 ih =>
      intro t tok t' hn h hlen
      rcases next_inv t with ⟨h0, he⟩ | ⟨tok1, r, hne, hlp, he⟩ |
        ⟨r, hne, hlp, hdw, htr, he⟩ | ⟨r, hne, hlp, hdw, htr, he⟩ |
        ⟨r, rs, hne, hlp, hpre, hdw, he⟩ | ⟨r, c, rs, hne, hlp, hpre, hdw, he⟩
      · rw [he] at h; simp at h
      · rw [he] at h
        simp only [PanicOr.ok.injEq, Prod.mk.injEq, Option.some.injEq] at h
        obtain ⟨h1, -⟩ := h
        subst h1
        intro n hn2
        have hfst := congrArg Prod.fst hlp
        rw [lp_fst] at hfst
        simp only at hfst
        obtain ⟨dur, hdur, hpd⟩ := Option.map_eq_some'.mp hfst
        rw [hn2] at hpd
        have hdur2 : dur = PauseDuration.Seconds n := by
          have := hpd
          simp only [Token.Pause.injEq] at this
          exact this
        rw [hdur2] at hdur
        have hple : (t.rest.takeWhile pauseRunChar).count '.' ≤
            t.rest.length :=
          le_trans (List.count_le_length _ _)
            ((List.takeWhile_sublist _).length_le)
        exact fromCounts_seconds_pos _ _ _ (by omega) hdur
      · rw [he] at h; simp at h
      · rw [he] at h
        simp only [PanicOr.ok.injEq, Prod.mk.injEq, Option.some.injEq] at h
        obtain ⟨h1, -⟩ := h
        intro n hn2
        rw [hn2] at h1
        exact absurd h1 (new_ne_pause _ _ _)
      · have hrec := rec_call_length hne hlp hdw
        exact ih rs.length (hn ▸ hrec) ⟨rs, t.style.flip⟩ tok t' rfl
          (he.symm.trans h) (by simp only; omega)
      · rw [he] at h
        simp only [PanicOr.ok.injEq, Prod.mk.injEq, Option.some.injEq] at h
        obtain ⟨h1, -⟩ := h
        intro n hn2
        rw [hn2] at h1
        exact absurd h1 (new_ne_pause _ _ _)
  intro t tok t' h hlen
  exact H t.rest.length t tok t' rfl h hlen

/-! ## Fuel bridges and driver lemmas -/

theorem nextFuel_eq : ∀ (fuel : Nat) (t : Tokenizer),
    t.rest.length < fuel → Tokenizer.nextFuel fuel t = t.next := by
  intro fuel
  induction fuel with
  | zero => intro t h; omega
  | succ fuel ih =>
    intro t h
    rcases next_inv t with ⟨h0, he⟩ | ⟨tok, r, hne, hlp, he⟩ |
      ⟨r, hne, hlp, hdw, htr, he⟩ | ⟨r, hne, hlp, hdw, htr, he⟩ |
      ⟨r, rs, hne, hlp, hpre, hdw, he⟩ | ⟨r, c, rs, hne, hlp, hpre, hdw, he⟩
    · rw [he]
      simp [Tokenizer.nextFuel, h0]
    all_goals (
      rw [he]
      obtain ⟨c0, rest0, hrest⟩ := List.exists_cons_of_ne_nil hne
      rw [hrest] at hlp)
    · rw [Tokenizer.nextFuel, hrest]
      dsimp only
      rw [hlp]
    · rw [Tokenizer.nextFuel, hrest]
      dsimp only
      rw [hlp]
      dsimp only
      rw [hdw]
      dsimp only
      rw [if_pos htr]
    · rw [Tokenizer.nextFuel, hrest]
      dsimp only
      rw [hlp]
      dsimp only
      rw [hdw]
      dsimp only
      rw [if_neg htr]
    · have hlen : rs.length < fuel := by
        have h1 := rec_call_length (l := c0 :: rest0)
          (List.cons_ne_nil c0 rest0) hlp hdw
        rw [hrest] at h
        simp only [List.length_cons] at h h1 ⊢
        omega
      rw [Tokenizer.nextFuel, hrest]
      dsimp only
      rw [hlp]
      dsimp only
      rw [hdw]
      dsimp only
      rw [if_pos hpre, if_pos rfl]
      exact ih ⟨rs, t.style.flip⟩ hlen
    · rw [Tokenizer.nextFuel, hrest]
      dsimp only
      rw [hlp]
      dsimp only
      rw [hdw]
      dsimp only
      rw [if_neg hpre]

theorem collectFuel_eq : ∀ (fuel : Nat) (t : Tokenizer),
    collectFuel fuel t = collectTokens fuel t := by
  intro fuel
  induction fuel with
  | zero => intro t; rfl
  | succ fuel ih =>
    intro t
    have hbridge := nextFuel_eq (t.rest.length + 1) t (by omega)
    rcases hnext : t.next with _ | ⟨o, t'⟩
    · simp [collectFuel, collectTokens, hbridge, hnext]
    · cases o with
      | none => simp [collectFuel, collectTokens, hbridge, hnext]
      | some tok => simp [collectFuel, collectTokens, hbridge, hnext, ih t']

/-- The token list is fuel-independent once the fuel exceeds the remaining
input length: the driver always reaches exhaustion first. -/
theorem collect_stable : ∀ (n f1 f2 : Nat) (t : Tokenizer),
    t.rest.length = n → t.rest.length < f1 → t.rest.length < f2 →
      collectTokens f1 t = collectTokens f2 t := by
  intro n
  induction n using Nat.strong_induction_on with
  | _ n ih =>
    intro f1 f2 t hn h1 h2
    rcases f1 with _ | f1
    · omega
    rcases f2 with _ | f2
    · omega
    rcases hnext : t.next with _ | ⟨o, t'⟩
    · simp [collectTokens, hnext]
    · cases o with
      | none => simp [collectTokens, hnext]
      | some tok =>
        have hne : t.rest ≠ [] := by
          intro hnil
          rw [next_eq_nil t hnil] at hnext
          simp at hnext
        have hlt := (next_shrink t (some tok) t' hnext).2 hne
        have heq := ih t'.rest.length (by omega) f1 f2 t' rfl (by omega)
          (by omega)
        simp [collectTokens, hnext, heq]

/-- The driver never panics: there is always a token list. -/
theorem collect_no_panic : ∀ (fuel : Nat) (t : Tokenizer),
    ∃ toks, collectTokens fuel t = .ok toks := by
  intro fuel
  induction fuel with
  | zero => intro t; exact ⟨[], rfl⟩
  | succ fuel ih =>
    intro t
    obtain ⟨o, t', hnext⟩ := next_no_panic t
    cases o with
    | none => exact ⟨[], by simp [collectTokens, hnext]⟩
    | some tok =>
      obtain ⟨toks, h⟩ := ih t'
      exact ⟨tok :: toks, by simp [collectTokens, hnext, h]⟩

/-- Concrete-evaluation form of `tokenize`. -/
theorem tokenize_eval (s : List Char) :
    tokenize s = collectFuel (s.length + 1) ⟨s, Style.Unemphasised⟩ := by
  rw [tokenize, collectFuel_eq]

theorem wantedWaitTime_pos (attempt : Nat) : 1 ≤ wantedWaitTime attempt := by
  rw [wantedWaitTime]
  have h23 : 10 ^ attempt ≤ 23 ^ attempt :=
    Nat.pow_le_pow_left (by omega) attempt
  have h10 : 0 < 10 ^ attempt := Nat.pos_pow_of_pos attempt (by omega)
  rw [Nat.le_div_iff_mul_le (by omega)]
  omega

theorem cancelLoopFuel_eq :
    ∀ (fuel : Nat) (s : State) (polls : List TryWaitRes) (attempt : Nat)
      (remaining : Option Nat),
      (remaining = none → 0 < fuel) →
      (∀ r, remaining = some r → r + 1 < fuel) →
        cancelLoopFuel fuel s polls attempt remaining =
          State.cancelLoop s polls attempt remaining := by
  intro fuel
  induction fuel with
  | zero =>
    intro s polls attempt remaining h0 hs
    cases remaining with
    | none => exact absurd (h0 rfl) (by omega)
    | some r => exact absurd (hs r rfl) (by omega)
  | succ fuel ih =>
    intro s polls attempt remaining h0 hs
    cases s with
    | Cancelled => simp [cancelLoopFuel, State.cancelLoop]
    | Done status => simp [cancelLoopFuel, State.cancelLoop]
    | Running =>
      cases remaining with
      | none => simp [cancelLoopFuel, State.cancelLoop]
      | some current =>
        have hcur : current + 1 < fuel + 1 := hs current rfl
        rcases hu : State.update State.Running polls with _ | ⟨s', polls'⟩
        · simp [cancelLoopFuel, State.cancelLoop, hu]
        · have hw := wantedWaitTime_pos attempt
          simp only [cancelLoopFuel, State.cancelLoop, hu]
          refine ih s' polls' (attempt + 1) _ ?_ ?_
          · intro _
            omega
          · intro r hr
            by_cases hc : current ≤ wantedWaitTime attempt
            · rw [if_pos hc] at hr
              cases hr
            · rw [if_neg hc] at hr
              simp only [Option.some.injEq] at hr
              omega

/-- Concrete-evaluation form of `State.cancel`. -/
theorem cancel_eval (killRes : KillRes) (s : State)
    (polls : List TryWaitRes) :
    State.cancel killRes s polls = cancelFuel killRes s polls := by
  rw [State.cancel, cancelFuel]
  rcases hu : State.update s polls with _ | ⟨s1, polls1⟩
  · rfl
  · dsimp only
    cases s1 with
    | Running =>
      cases killRes with
      | ioError => rfl
      | ok =>
        dsimp only
        rcases hu2 : State.update State.Running polls1 with _ | ⟨s2, polls2⟩
        · rfl
        · dsimp only
          exact (cancelLoopFuel_eq (CANCEL_GRACE_TIMEOUT + 2) s2 polls2 1
            (some CANCEL_GRACE_TIMEOUT) (by intro h; simp at h)
            (by intro r hr
                simp only [CANCEL_GRACE_TIMEOUT, Option.some.injEq] at hr ⊢
                omega)).symm
    | Done status =>
      dsimp only
      exact (cancelLoopFuel_eq (CANCEL_GRACE_TIMEOUT + 2) (State.Done status)
        polls1 1 (some CANCEL_GRACE_TIMEOUT) (by intro h; simp at h)
        (by intro r hr
            simp only [CANCEL_GRACE_TIMEOUT, Option.some.injEq] at hr ⊢
            omega)).symm
    | Cancelled =>
      dsimp only
      exact (cancelLoopFuel_eq (CANCEL_GRACE_TIMEOUT + 2) State.Cancelled
        polls1 1 (some CANCEL_GRACE_TIMEOUT) (by intro h; simp at h)
        (by intro r hr
            simp only [CANCEL_GRACE_TIMEOUT, Option.some.injEq] at hr ⊢
            omega)).symm

/-! ## Lossless coverage of the input (claim C7) -/

theorem Chunks_prepend (e : List Char) (toks : List Token) (s : List Char)
    (he : ∀ c ∈ e, droppable c = true) (h : Chunks toks s) :
    Chunks toks (e ++ s) := by
  cases h with
  | nil d hd =>
    refine Chunks.nil _ ?_
    intro c hc
    rcases List.mem_append.mp hc with hc1 | hc2
    · exact he c hc1
    · exact hd c hc2
  | cons d hd tok toks0 rest hrest =>
    have hcons := Chunks.cons (e ++ d) (fun c hc => by
      rcases List.mem_append.mp hc with hc1 | hc2
      · exact he c hc1
      · exact hd c hc2) tok toks0 rest hrest
    simpa [List.append_assoc] using hcons

theorem collect_chunks : ∀ (fuel : Nat) (t : Tokenizer) (toks : List Token),
    t.rest.length < fuel → collectTokens fuel t = .ok toks →
      Chunks toks t.rest := by
  intro fuel
  induction fuel with
  | zero => intro t toks h1 h2; omega
  | succ fuel ih =>
    intro t toks h1 h2
    obtain ⟨o, t', hnext⟩ := next_no_panic t
    cases o with
    | none =>
      have htoks : toks = [] := by
        simp [collectTokens, hnext] at h2
        exact h2
      subst htoks
      obtain ⟨d, e, hd, he, hsplit⟩ := next_decomp t none t' hnext
      have hrest : t'.rest = [] := next_none_rest t t' hnext
      rw [hrest] at hsplit
      simp only [optText, List.append_nil] at hsplit
      rw [hsplit]
      refine Chunks.nil (d ++ e) ?_
      intro c hc
      rcases List.mem_append.mp hc with hc1 | hc2
      · exact hd c hc1
      · exact he c hc2
    | some tok =>
      rcases hrec : collectTokens fuel t' with _ | toks'
      · simp [collectTokens, hnext, hrec] at h2
      · have htoks : toks = tok :: toks' := by
          simp [collectTokens, hnext, hrec] at h2
          exact h2.symm
        subst htoks
        have hne : t.rest ≠ [] := by
          intro hnil
          rw [next_eq_nil t hnil] at hnext
          simp at hnext
        have hlt := (next_shrink t (some tok) t' hnext).2 hne
        have hch' := ih t' toks' (by omega) hrec
        obtain ⟨d, e, hd, he, hsplit⟩ := next_decomp t (some tok) t' hnext
        simp only [optText] at hsplit
        rw [hsplit]
        have hpre := Chunks_prepend e toks' t'.rest he hch'
        have := Chunks.cons d hd tok toks' (e ++ t'.rest) hpre
        simpa [List.append_assoc] using this

/-! ## Step lemmas for the speech-handle state machine -/

theorem update_terminal (s : State) (polls : List TryWaitRes)
    (hs : s ≠ State.Running) : State.update s polls = .ok (s, polls) := by
  cases s with
  | Running => exact absurd rfl hs
  | Done status => rfl
  | Cancelled => rfl

theorem cancelLoop_done (status : ExitStatus) (polls : List TryWaitRes)
    (attempt : Nat) (remaining : Option Nat) :
    State.cancelLoop (State.Done status) polls attempt remaining =
      .ok (.ok (), State.Cancelled) := by
  simp [State.cancelLoop]

theorem cancelLoop_cancelled (polls : List TryWaitRes) (attempt : Nat)
    (remaining : Option Nat) :
    State.cancelLoop State.Cancelled polls attempt remaining =
      .ok (.ok (), State.Cancelled) := by
  simp [State.cancelLoop]

theorem cancel_done (killRes : KillRes) (status : ExitStatus)
    (polls : List TryWaitRes) :
    State.cancel killRes (State.Done status) polls =
      .ok (.ok (), State.Cancelled) := by
  rw [State.cancel, update_terminal _ _ (by simp)]
  exact cancelLoop_done status polls 1 (some CANCEL_GRACE_TIMEOUT)

theorem cancel_cancelled (killRes : KillRes) (polls : List TryWaitRes) :
    State.cancel killRes State.Cancelled polls =
      .ok (.ok (), State.Cancelled) := by
  rw [State.cancel, update_terminal _ _ (by simp)]
  exact cancelLoop_cancelled polls 1 (some CANCEL_GRACE_TIMEOUT)

theorem awaitDone_terminal :
    ∀ (fuel : Nat) (env : List (Bool × TryWaitRes)) (s : State),
      s ≠ State.Running →
        Speech.awaitDone fuel env s = .panic ∨
        ∃ x, Speech.awaitDone fuel env s = .ok (x, s) := by
  intro fuel env s hs
  cases fuel with
  | zero => exact Or.inr ⟨none, rfl⟩
  | succ fuel =>
    simp only [Speech.awaitDone]
    generalize hE : env.headD (true, TryWaitRes.stillRunning) = e
    obtain ⟨lf, poll⟩ := e
    cases lf with
    | false =>
      left
      simp [Speech.isDone]
    | true =>
      right
      cases s with
      | Running => exact absurd rfl hs
      | Cancelled =>
        exact ⟨some (.ok ()), by
          simp [Speech.isDone, State.update, State.exitedSuccessfully]⟩
      | Done status =>
        cases hst : status.success with
        | true =>
          exact ⟨some (.ok ()), by
            simp [Speech.isDone, State.update, State.exitedSuccessfully,
              hst]⟩
        | false =>
          exact ⟨some (.error (Error.ExitFailure status)), by
            simp [Speech.isDone, State.update, State.exitedSuccessfully,
              hst]⟩

theorem runOp_cancelled (op : Op) (s' : State)
    (h : runOp State.Cancelled op = .ok s') : s' = State.Cancelled := by
  cases op with
  | isDone lf poll =>
    cases lf with
    | false => simp [runOp, Speech.isDone] at h
    | true =>
      simp [runOp, Speech.isDone, State.update,
        State.exitedSuccessfully] at h
      exact h.symm
  | awaitDone fuel env =>
    rcases awaitDone_terminal fuel env State.Cancelled (by simp)
      with hp | ⟨x, hx⟩
    · simp [runOp, hp] at h
    · simp [runOp, hx] at h
      exact h.symm
  | cancel lf kr polls =>
    cases lf with
    | false => simp [runOp, Speech.cancel] at h
    | true =>
      simp [runOp, Speech.cancel, cancel_cancelled] at h
      exact h.symm

theorem runOp_done (op : Op) (status : ExitStatus) (s' : State)
    (h : runOp (State.Done status) op = .ok s') :
    s' = State.Done status ∨ s' = State.Cancelled := by
  cases op with
  | isDone lf poll =>
    cases lf with
    | false => simp [runOp, Speech.isDone] at h
    | true =>
      simp [runOp, Speech.isDone, State.update] at h
      exact Or.inl h.symm
  | awaitDone fuel env =>
    rcases awaitDone_terminal fuel env (State.Done status) (by simp)
      with hp | ⟨x, hx⟩
    · simp [runOp, hp] at h
    · simp [runOp, hx] at h
      exact Or.inl h.symm
  | cancel lf kr polls =>
    cases lf with
    | false => simp [runOp, Speech.cancel] at h
    | true =>
      simp [runOp, Speech.cancel, cancel_done] at h
      exact Or.inr h.symm

/-! ## Cancellation with a process that never exits (claim C8) -/

theorem update_sr (polls : List TryWaitRes)
    (h : ∀ x ∈ polls, x = TryWaitRes.stillRunning) :
    State.update State.Running polls = .ok (State.Running, polls.tail) := by
  cases polls with
  | nil => rfl
  | cons p ps =>
    have hp : p = TryWaitRes.stillRunning := h p (by simp)
    simp [State.update, hp]

theorem cancelLoop_running_none (polls : List TryWaitRes) (attempt : Nat) :
    State.cancelLoop State.Running polls attempt none =
      .ok (.error Error.CancelIgnored, State.Running) := by
  simp [State.cancelLoop]

theorem cancelLoop_running_step (polls : List TryWaitRes) (attempt r : Nat) :
    State.cancelLoop State.Running polls attempt (some r) =
      (match State.update State.Running polls with
       | .panic => .panic
       | .ok (s', polls') =>
         State.cancelLoop s' polls' (attempt + 1)
           (if r ≤ wantedWaitTime attempt then none
            else some (r - wantedWaitTime attempt))) := by
  rw [State.cancelLoop]

/-- If every poll keeps reporting the process alive, the grace-period loop
always ends in `CancelIgnored` with the state still `Running`, whatever the
remaining budget. -/
theorem cancelLoop_sr :
    ∀ (n : Nat) (rem : Option Nat),
      (match rem with | none => 0 | some r => r + 1) = n →
      ∀ (polls : List TryWaitRes) (attempt : Nat),
        (∀ x ∈ polls, x = TryWaitRes.stillRunning) →
        State.cancelLoop State.Running polls attempt rem =
          .ok (.error Error.CancelIgnored, State.Running) := by
  intro n
  induction n using Nat.strong_induction_on with
  | _ n ih =>
    intro rem hn polls attempt hsr
    cases rem with
    | none => exact cancelLoop_running_none polls attempt
    | some r =>
      have htail : ∀ x ∈ polls.tail, x = TryWaitRes.stillRunning :=
        fun x hx => hsr x (List.mem_of_mem_tail hx)
      rw [cancelLoop_running_step, update_sr polls hsr]
      dsimp only
      simp only at hn
      have hw := wantedWaitTime_pos attempt
      by_cases hc : r ≤ wantedWaitTime attempt
      · rw [if_pos hc]
        exact ih 0 (by omega) none rfl polls.tail (attempt + 1) htail
      · rw [if_neg hc]
        exact ih (r - wantedWaitTime attempt + 1) (by omega)
          (some (r - wantedWaitTime attempt)) rfl polls.tail (attempt + 1)
          htail

/-- `State::cancel` on a process that never confirms exit: the state stays
`Running` and the call reports `CancelIgnored`. -/
theorem cancel_sr (polls : List TryWaitRes)
    (h : ∀ x ∈ polls, x = TryWaitRes.stillRunning) :
    State.cancel KillRes.ok State.Running polls =
      .ok (.error Error.CancelIgnored, State.Running) := by
  have htail : ∀ x ∈ polls.tail, x = TryWaitRes.stillRunning :=
    fun x hx => h x (List.mem_of_mem_tail hx)
  have htail2 : ∀ x ∈ polls.tail.tail, x = TryWaitRes.stillRunning :=
    fun x hx => htail x (List.mem_of_mem_tail hx)
  rw [State.cancel, update_sr polls h]
  dsimp only
  rw [update_sr polls.tail htail]
  dsimp only
  exact cancelLoop_sr (CANCEL_GRACE_TIMEOUT + 1) (some CANCEL_GRACE_TIMEOUT)
    rfl polls.tail.tail 1 htail2

/-! ## Seconds pauses are always positive (claim C10) -/

theorem collect_pause_pos :
    ∀ (fuel : Nat) (t : Tokenizer) (toks : List Token),
      collectTokens fuel t = .ok toks → t.rest.length < 2 ^ 32 + 2 →
        ∀ tok ∈ toks, ∀ n, tok = Token.Pause (PauseDuration.Seconds n) →
          1 ≤ n := by
  intro fuel
  induction fuel with
  | zero =>
    intro t toks h hlen tok htok
    simp [collectTokens] at h
    rw [h] at htok
    cases htok
  | succ fuel ih =>
    intro t toks h hlen tok htok n hn
    obtain ⟨o, t', hnext⟩ := next_no_panic t
    cases o with
    | none =>
      simp [collectTokens, hnext] at h
      rw [h] at htok
      cases htok
    | some tok0 =>
      rcases hrec : collectTokens fuel t' with _ | toks'
      · simp [collectTokens, hnext, hrec] at h
      · have htoks : toks = tok0 :: toks' := by
          simp [collectTokens, hnext, hrec] at h
          exact h.symm
        subst htoks
        have hle := (next_shrink t (some tok0) t' hnext).1
        rcases List.mem_cons.mp htok with h1 | h2
        · subst h1
          exact next_pause_pos t tok t' hnext hlen n hn
        · exact ih t' toks' hrec (by omega) tok h2 n hn

/-! ## A run of `2 ^ 32 + 2` periods reaches the `u32` wrap (claims C5,
C10) -/

theorem takeWhile_replicate_dot (n : Nat) :
    (List.replicate n '.').takeWhile pauseRunChar =
      List.replicate n '.' := by
  have hdot : pauseRunChar '.' = true := by decide
  induction n with
  | zero => rfl
  | succ n ih => simp [List.replicate_succ, List.takeWhile_cons, hdot, ih]

theorem dropWhile_replicate_dot (n : Nat) :
    (List.replicate n '.').dropWhile pauseRunChar = [] := by
  have hdot : pauseRunChar '.' = true := by decide
  induction n with
  | zero => rfl
  | succ n ih => simp [List.replicate_succ, List.dropWhile_cons, hdot, ih]

theorem count_dot_replicate (n : Nat) :
    (List.replicate n '.').count '.' = n := by
  induction n with
  | zero => rfl
  | succ n ih => simp [List.replicate_succ, List.count_cons, ih]

theorem count_nl_replicate (n : Nat) :
    (List.replicate n '.').count '\n' = 0 := by
  rw [List.count_eq_zero]
  intro hmem
  rw [List.mem_replicate] at hmem
  exact absurd hmem.2 (by decide)

/-- The leading-pause scan over a pure period run counts every period. -/
theorem cLP_replicate_dot (n : Nat) :
    consumeLeadingPause (List.replicate n '.') = (n, 0, []) := by
  rw [consumeLeadingPause, takeWhile_replicate_dot, dropWhile_replicate_dot,
    count_dot_replicate, count_nl_replicate]

/-- At a run of `2 ^ 32 + 2` periods the scan emits `Pause(Seconds 0)`:
the `as u32` cast wraps `p - 2 = 2 ^ 32` to `0`. -/
theorem leadingPauseToken_wrap :
    leadingPauseToken (List.replicate (2 ^ 32 + 2) '.') =
      (some (Token.Pause (PauseDuration.Seconds 0)), []) := by
  rw [leadingPauseToken, cLP_replicate_dot]
  dsimp only
  rw [fromCounts_wrap]
  rfl

theorem collect_nil_tok (fuel : Nat) (style : Style) :
    collectTokens fuel ⟨[], style⟩ = .ok [] := by
  cases fuel with
  | zero => rfl
  | succ fuel =>
    simp [collectTokens, next_eq_nil (⟨[], style⟩ : Tokenizer) rfl]

/-- Tokenizing a run of `2 ^ 32 + 2` periods yields exactly one token,
`Pause(Seconds 0)`. -/
theorem tokenize_wrap :
    tokenize (List.replicate (2 ^ 32 + 2) '.') =
      .ok [Token.Pause (PauseDuration.Seconds 0)] := by
  have hstep : (⟨List.replicate (2 ^ 32 + 2) '.',
      Style.Unemphasised⟩ : Tokenizer).next =
      .ok (some (Token.Pause (PauseDuration.Seconds 0)),
        ⟨[], Style.Unemphasised⟩) :=
    next_eq_pause _ _ _ leadingPauseToken_wrap
  rw [tokenize, List.length_replicate, collectTokens, hstep]
  dsimp only
  rw [collect_nil_tok]

/-! ## Claim theorems -/

/-- C1, counterexample: the claim says `Done` and `Cancelled` are both
terminal and no operation transitions out of them, but a `cancel` call on a
handle whose state is already `Done` moves the state to `Cancelled`
(src/child.rs `State::cancel`, the `State::Done(_) => { *self =
State::Cancelled; ... }` arm), so the `Done` variant does change. -/
theorem c1_counterexample :
    runOps (State.Done ⟨true⟩) [Op.cancel true KillRes.ok []] =
      .ok State.Cancelled ∧
    State.Done ⟨true⟩ ≠ State.Cancelled := by
  constructor
  · simp [runOps, runOp, Speech.cancel, cancel_done]
  · simp

/-- C1 (amended): across any sequence of `is_done`, `await_done` and
`cancel` calls on one handle, the state never reverts from a terminal
variant to `Running`: from `Cancelled` the state stays `Cancelled`
forever, and from `Done st` it can only stay `Done st` or move to
`Cancelled` (which a `cancel` call does); it never becomes `Running`
again. -/
theorem c1_terminal_no_revert :
    ∀ (ops : List Op) (s s' : State), runOps s ops = .ok s' →
      (s = State.Cancelled → s' = State.Cancelled) ∧
      (∀ st, s = State.Done st → s' = State.Done st ∨ s' = State.Cancelled) ∧
      (s ≠ State.Running → s' ≠ State.Running) := by
  intro ops
  induction ops with
  | nil =>
    intro s s' h
    simp only [runOps, PanicOr.ok.injEq] at h
    subst h
    exact ⟨fun h1 => h1, fun st h2 => Or.inl h2, fun h3 => h3⟩
  | cons op ops ih =>
    intro s s' h
    rcases hop : runOp s op with _ | s1
    · simp [runOps, hop] at h
    · simp only [runOps, hop] at h
      obtain ⟨ih1, ih2, ih3⟩ := ih s1 s' h
      refine ⟨?_, ?_, ?_⟩
      · intro h1
        subst h1
        exact ih1 (runOp_cancelled op s1 hop)
      · intro st h1
        subst h1
        rcases runOp_done op st s1 hop with h2 | h2
        · exact ih2 st h2
        · exact Or.inr (ih1 h2)
      · intro h1
        cases s with
        | Running => exact absurd rfl h1
        | Done st =>
          rcases runOp_done op st s1 hop with h2 | h2
          · rcases ih2 st h2 with h3 | h3 <;> simp [h3]
          · simp [ih1 h2]
        | Cancelled => simp [ih1 (runOp_cancelled op s1 hop)]

/-- C1, witness: the amended theorem applied to an `is_done` call on a
handle whose process already exited unsuccessfully. -/
theorem c1_witness :
    (State.Done ⟨false⟩ = State.Cancelled →
      State.Done ⟨false⟩ = State.Cancelled) ∧
    (∀ st, State.Done (⟨false⟩ : ExitStatus) = State.Done st →
      State.Done ⟨false⟩ = State.Done st ∨
      State.Done ⟨false⟩ = State.Cancelled) ∧
    (State.Done ⟨false⟩ ≠ State.Running →
      State.Done ⟨false⟩ ≠ State.Running) :=
  c1_terminal_no_revert [Op.isDone true TryWaitRes.stillRunning]
    (State.Done ⟨false⟩) (State.Done ⟨false⟩) (by decide)

/-- C2, counterexample: the claim says the exit-failure error is returned
by exactly one `is_done` call and every subsequent call returns `true`;
but in src/child.rs `State::exited_successfully` re-raises
`Error::ExitFailure` on every call while the state is `Done(failure)`:
here the second `is_done` raises the error again instead of returning
`true`. -/
theorem c2_counterexample :
    Speech.isDone true (TryWaitRes.exited ⟨false⟩) State.Running =
      .ok (.error (Error.ExitFailure ⟨false⟩), State.Done ⟨false⟩) ∧
    Speech.isDone true TryWaitRes.stillRunning (State.Done ⟨false⟩) =
      .ok (.error (Error.ExitFailure ⟨false⟩), State.Done ⟨false⟩) ∧
    Speech.isDone true TryWaitRes.stillRunning (State.Done ⟨false⟩) ≠
      .ok (.ok true, State.Done ⟨false⟩) := by
  refine ⟨by decide, by decide, by decide⟩

/-- C2 (amended): when the watched process exited with an unsuccessful
status while not under an active cancellation, EVERY `is_done` call that
acquires the lock returns the exit-failure error — the first observer and
all subsequent callers alike — and the state stays `Done(failure)` (until
a `cancel` supersedes it with `Cancelled`); `is_done` never reports `true`
from that state. -/
theorem c2_error_every_call (status : ExitStatus) (poll : TryWaitRes)
    (h : status.success = false) :
    Speech.isDone true poll (State.Done status) =
      .ok (.error (Error.ExitFailure status), State.Done status) := by
  simp [Speech.isDone, State.update, State.exitedSuccessfully, h]

/-- C2, witness: the amended theorem at a concrete failed exit status. -/
theorem c2_witness :
    (⟨false⟩ : ExitStatus).success = false ∧
    Speech.isDone true TryWaitRes.stillRunning (State.Done ⟨false⟩) =
      .ok (.error (Error.ExitFailure ⟨false⟩), State.Done ⟨false⟩) :=
  ⟨rfl, c2_error_every_call ⟨false⟩ TryWaitRes.stillRunning rfl⟩

/-- C3 (code bug): the claim — and the specification (§4.2, §7, §8 "no
thread ever panics") — says `is_done` returns `Ok(false)` when it cannot
acquire the state lock; the code instead calls
`try_lock().expect("Failed to obtain lock on child process")`
(src/child.rs line 62-65), which panics on contention.  The sibling
implementation in src/espeak.rs implements the specified policy
(`Err(_) => Ok(false)`), so the spec is the evident intent and the
`expect` a slip.  This theorem evaluates the code at the failing input:
under contention `is_done` panics, for every state and poll outcome. -/
theorem c3_contention_panics :
    ∀ (poll : TryWaitRes) (s : State),
      Speech.isDone false poll s = .panic := by
  intro poll s
  simp [Speech.isDone]

/-- C4 (code bug): the claim — and src/child.rs's own `Error` type, which
declares `CannotAwait` and `CannotCancel` variants for exactly these
failures yet never constructs them — says that failure to query the exit
status or to send the termination signal is reported as a typed error;
the code instead panics via `expect` in `State::update` (try_wait) and
`State::cancel` (kill).  This theorem evaluates the code at the failing
inputs: an IO error from `try_wait` during `is_done`/`await_done` and an
IO error from `kill` during `cancel` all panic instead of returning
`Err`. -/
theorem c4_io_failure_panics :
    Speech.isDone true TryWaitRes.ioError State.Running = .panic ∧
    Speech.awaitDone 1 [(true, TryWaitRes.ioError)] State.Running =
      .panic ∧
    State.cancel KillRes.ioError State.Running [] = .panic ∧
    Speech.cancel true KillRes.ioError [] State.Running = .panic := by
  refine ⟨by decide, by decide, by decide, by decide⟩

/-- C5, counterexample: the claim says a run of `p ≥ 3` periods emits
`Pause(Seconds (p - 2))`, but token.rs line 36 computes
`Seconds((n - 2) as u32)`: at a run of `2 ^ 32 + 2` periods (reachable on
a 64-bit target) the cast wraps and the scan emits `Pause(Seconds 0)`,
not `Pause(Seconds (2 ^ 32))`. -/
theorem c5_counterexample :
    consumeLeadingPause (List.replicate (2 ^ 32 + 2) '.') =
      (2 ^ 32 + 2, 0, []) ∧
    (leadingPauseToken (List.replicate (2 ^ 32 + 2) '.')).1 =
      some (Token.Pause (PauseDuration.Seconds 0)) ∧
    (leadingPauseToken (List.replicate (2 ^ 32 + 2) '.')).1 ≠
      some (Token.Pause (PauseDuration.Seconds (2 ^ 32 + 2 - 2))) := by
  refine ⟨cLP_replicate_dot _, ?_, ?_⟩
  · rw [leadingPauseToken_wrap]
  · rw [leadingPauseToken_wrap]
    intro hco
    simp at hco

/-- C5 (amended): the leading pause run consumed at each tokenization
step maps to a pause token as claimed, except that the seconds count
carries the `as u32` truncation of the source: with `p` periods and `nl`
newlines counted in the run, `nl > 1 ∧ p < 2` gives `Pause(Paragraph)`;
otherwise `p = 0` gives no pause token, `p = 1` gives `Pause(Sentence)`,
`p = 2` gives `Pause(Paragraph)`, and `p ≥ 3` gives
`Pause(Seconds ((p - 2) mod 2 ^ 32))` (the final branch below, reached
exactly when `p ≥ 3`; equal to `Seconds (p - 2)` whenever
`p < 2 ^ 32 + 2`).  The second conjunct ties this to the iterator:
whenever the leading-pause scan yields a pause token, `next` emits
exactly that token and consumes exactly that run. -/
theorem c5_pause_mapping :
    (∀ (l : List Char) (p nl : Nat) (r : List Char),
      consumeLeadingPause l = (p, nl, r) →
        (leadingPauseToken l).1 =
          (if 1 < nl ∧ p < 2 then some (Token.Pause PauseDuration.Paragraph)
           else if p = 0 then none
           else if p = 1 then some (Token.Pause PauseDuration.Sentence)
           else if p = 2 then some (Token.Pause PauseDuration.Paragraph)
           else some (Token.Pause
             (PauseDuration.Seconds ((p - 2) % 2 ^ 32))))) ∧
    (∀ (rest : List Char) (style : Style) (tok : Token) (r : List Char),
      leadingPauseToken rest = (some tok, r) →
        Tokenizer.next ⟨rest, style⟩ = .ok (some tok, ⟨r, style⟩)) := by
  constructor
  · intro l p nl r hc
    have hp : (consumeLeadingPause l).1 = p := by rw [hc]
    have hnl : (consumeLeadingPause l).2.1 = nl := by rw [hc]
    have h0 : (leadingPauseToken l).1 =
        (PauseDuration.fromCounts (consumeLeadingPause l).1
          (consumeLeadingPause l).2.1).map Token.Pause := rfl
    rw [h0, hp, hnl, fromCounts_eq_ifs]
    split_ifs <;> rfl
  · intro rest style tok r h
    exact next_eq_pause ⟨rest, style⟩ tok r h

/-- C5, witness: the mapping and the emission at the concrete run ".". -/
theorem c5_witness :
    (leadingPauseToken ['.']).1 =
      some (Token.Pause PauseDuration.Sentence) ∧
    Tokenizer.next ⟨['.'], Style.Unemphasised⟩ =
      .ok (some (Token.Pause PauseDuration.Sentence),
        ⟨[], Style.Unemphasised⟩) := by
  constructor
  · have h := c5_pause_mapping.1 ['.'] 1 0 [] (by decide)
    simpa using h
  · exact c5_pause_mapping.2 ['.'] Style.Unemphasised
      (Token.Pause PauseDuration.Sentence) [] (by decide)

/-- C6, counterexample: the claim (and spec §8) expects
`tokenize("plain ... _emph_. ..")` to end with `Pause(Sentence),
Pause(Paragraph)`, reading the trailing `". .."` as two separate runs;
but `consume_leading_pause` consumes periods interleaved with whitespace
as one run, so the tail is a single run with `p = 3`, and the claimed
token sequence is not produced. -/
theorem c6_counterexample :
    tokenize ['p','l','a','i','n',' ','.','.','.',' ',
              '_','e','m','p','h','_','.',' ','.','.'] ≠
      .ok [Token.Normal ['p','l','a','i','n'],
           Token.Pause (PauseDuration.Seconds 1),
           Token.Emphasised ['e','m','p','h'],
           Token.Pause PauseDuration.Sentence,
           Token.Pause PauseDuration.Paragraph] := by
  rw [tokenize_eval]
  decide

/-- C6 (amended): `tokenize("plain ... _emph_. ..")` yields exactly
`[Normal("plain"), Pause(Seconds 1), Emphasised("emph"),
Pause(Seconds 1)]`: after the closing emphasis delimiter the remaining
`". .."` is consumed as one leading pause run (periods interleaved with
whitespace), counting `p = 3` periods, which maps to `Pause(Seconds 1)` —
not to a Sentence pause followed by a Paragraph pause. -/
theorem c6_amended :
    tokenize ['p','l','a','i','n',' ','.','.','.',' ',
              '_','e','m','p','h','_','.',' ','.','.'] =
      .ok [Token.Normal ['p','l','a','i','n'],
           Token.Pause (PauseDuration.Seconds 1),
           Token.Emphasised ['e','m','p','h'],
           Token.Pause (PauseDuration.Seconds 1)] := by
  rw [tokenize_eval]
  decide

/-- C7: for every input, the input splits as alternating runs of droppable
characters (the pause delimiters `'.'`/`'\n'`, the emphasis delimiter
`'_'`, and whitespace) and the emitted token texts, in emission order
(`Chunks`).  Hence concatenating the `Normal`/`Emphasised` texts
reproduces the input with only delimiters and separator whitespace
removed: each text is a contiguous verbatim span of the input, no
character is invented, and every dropped character is a delimiter or
whitespace. -/
theorem c7_lossless :
    ∀ (s : List Char) (toks : List Token),
      tokenize s = .ok toks → Chunks toks s := by
  intro s toks h
  exact collect_chunks (s.length + 1) ⟨s, Style.Unemphasised⟩ toks
    (Nat.lt_succ_self s.length) h

/-- C7, witness: the coverage theorem at the spec's own example
"hi _there". -/
theorem c7_witness :
    Chunks [Token.Normal ['h','i'], Token.Emphasised ['t','h','e','r','e']]
      ['h','i',' ','_','t','h','e','r','e'] :=
  c7_lossless ['h','i',' ','_','t','h','e','r','e']
    [Token.Normal ['h','i'], Token.Emphasised ['t','h','e','r','e']]
    (by rw [tokenize_eval]; decide)

/-- C8: if every poll reports the process still alive, `cancel` exhausts
its 300 ms grace-period ceiling, returns the cancellation-unconfirmed
error `CancelIgnored`, and leaves the state `Running` — unchanged, so the
failure is retryable.  The second conjunct shows a subsequent `cancel`
restarts one full grace-period attempt: with a fresh budget the retry
still waits out seven backoff slices (polls 3–9 of its own oracle) and
succeeds when the exit is confirmed only on the last in-budget check. -/
theorem c8_cancel_unconfirmed :
    ∀ polls : List TryWaitRes,
      (∀ x ∈ polls, x = TryWaitRes.stillRunning) →
        State.cancel KillRes.ok State.Running polls =
          .ok (.error Error.CancelIgnored, State.Running) ∧
        State.cancel KillRes.ok State.Running
            (List.replicate 8 TryWaitRes.stillRunning ++
              [TryWaitRes.exited ⟨false⟩]) =
          .ok (.ok (), State.Cancelled) := by
  intro polls h
  constructor
  · exact cancel_sr polls h
  · rw [cancel_eval]
    decide

/-- C8, witness: the theorem at the empty oracle (a process that never
reports an exit). -/
theorem c8_witness :
    State.cancel KillRes.ok State.Running [] =
      .ok (.error Error.CancelIgnored, State.Running) ∧
    State.cancel KillRes.ok State.Running
        (List.replicate 8 TryWaitRes.stillRunning ++
          [TryWaitRes.exited ⟨false⟩]) =
      .ok (.ok (), State.Cancelled) :=
  c8_cancel_unconfirmed [] (by simp)

/-- C9: tokenization is total and terminating on every input: it yields a
finite token list with no panic (in particular the `unreachable!` branch
of `consume_text` is never hit), the result is independent of any
sufficient step bound (every step strictly consumes input, fourth
conjunct), and once a step yields no token the remainder is empty and
every further `next` yields no token again, indefinitely (fused). -/
theorem c9_total_fused :
    (∀ s : List Char, ∃ toks, tokenize s = .ok toks) ∧
    (∀ (fuel : Nat) (s : List Char), s.length < fuel →
      collectTokens fuel ⟨s, Style.Unemphasised⟩ = tokenize s) ∧
    (∀ t t' : Tokenizer, t.next = .ok (none, t') →
      t'.rest = [] ∧ t'.next = .ok (none, t')) ∧
    (∀ (t : Tokenizer) (o : Option Token) (t' : Tokenizer),
      t.next = .ok (o, t') → t.rest ≠ [] →
        t'.rest.length < t.rest.length) := by
  refine ⟨?_, ?_, ?_, ?_⟩
  · intro s
    exact collect_no_panic (s.length + 1) ⟨s, Style.Unemphasised⟩
  · intro fuel s h
    exact collect_stable s.length fuel (s.length + 1)
      ⟨s, Style.Unemphasised⟩ rfl h (Nat.lt_succ_self s.length)
  · intro t t' h
    have hrest := next_none_rest t t' h
    refine ⟨hrest, ?_⟩
    have := next_eq_nil t' hrest
    exact this
  · intro t o t' h hne
    exact (next_shrink t o t' h).2 hne

/-- C9, witness: the theorem applied at concrete inputs ("hi", fuel 3, and
a whitespace-only tokenizer step). -/
theorem c9_witness :
    (∃ toks, tokenize ['h','i'] = .ok toks) ∧
    (collectTokens 3 ⟨['h','i'], Style.Unemphasised⟩ =
      tokenize ['h','i']) ∧
    ((⟨[], Style.Unemphasised⟩ : Tokenizer).rest = [] ∧
      Tokenizer.next ⟨[], Style.Unemphasised⟩ =
        .ok (none, ⟨[], Style.Unemphasised⟩)) ∧
    ((⟨[], Style.Unemphasised⟩ : Tokenizer).rest.length <
      (⟨[' '], Style.Unemphasised⟩ : Tokenizer).rest.length) := by
  have hstep : Tokenizer.next ⟨[' '], Style.Unemphasised⟩ =
      .ok (none, ⟨[], Style.Unemphasised⟩) :=
    (nextFuel_eq 2 ⟨[' '], Style.Unemphasised⟩ (by decide)).symm.trans
      (by decide)
  refine ⟨c9_total_fused.1 ['h','i'],
    c9_total_fused.2.1 3 ['h','i'] (by decide),
    c9_total_fused.2.2.1 ⟨[' '], Style.Unemphasised⟩
      ⟨[], Style.Unemphasised⟩ hstep,
    c9_total_fused.2.2.2 ⟨[' '], Style.Unemphasised⟩ none
      ⟨[], Style.Unemphasised⟩ hstep (by decide)⟩

/-- C10, counterexample: the claim says every emitted `Pause(Seconds n)`
has `n ≥ 1`, but tokenizing a run of `2 ^ 32 + 2` periods emits
`Pause(Seconds 0)`: the `(n - 2) as u32` cast in token.rs line 36 wraps
`2 ^ 32` to `0`. -/
theorem c10_counterexample :
    tokenize (List.replicate (2 ^ 32 + 2) '.') =
      .ok [Token.Pause (PauseDuration.Seconds 0)] ∧
    Token.Pause (PauseDuration.Seconds 0) ∈
      [Token.Pause (PauseDuration.Seconds 0)] ∧
    ¬ (1 ≤ (0 : Nat)) :=
  ⟨tokenize_wrap, by simp, by omega⟩

/-- C10 (amended): every `Pause(Seconds n)` token the tokenizer emits for
an input shorter than `2 ^ 32 + 2` characters has `n ≥ 1`: below that
length every period run has `p < 2 ^ 32 + 2`, so the `as u32` cast does
not wrap and the count `(p - 2) mod 2 ^ 32 = p - 2 ≥ 1` arises only from
runs of `p ≥ 3` periods.  (At a run of exactly `2 ^ 32 + 2` periods the
cast wraps and `Seconds 0` is emitted, per the counterexample.) -/
theorem c10_seconds_positive :
    ∀ (s : List Char) (toks : List Token) (n : Nat),
      s.length < 2 ^ 32 + 2 →
      tokenize s = .ok toks →
        Token.Pause (PauseDuration.Seconds n) ∈ toks → 1 ≤ n := by
  intro s toks n hlen h hmem
  exact collect_pause_pos (s.length + 1) ⟨s, Style.Unemphasised⟩ toks h
    hlen (Token.Pause (PauseDuration.Seconds n)) hmem n rfl

/-- C10, witness: the theorem at the input "...", which tokenizes to a
single `Pause(Seconds 1)`. -/
theorem c10_witness :
    (['.','.','.'] : List Char).length < 2 ^ 32 + 2 ∧
    tokenize ['.','.','.'] = .ok [Token.Pause (PauseDuration.Seconds 1)] ∧
    1 ≤ 1 :=
  ⟨by norm_num,
   by rw [tokenize_eval]; decide,
   c10_seconds_positive ['.','.','.']
     [Token.Pause (PauseDuration.Seconds 1)] 1 (by norm_num)
     (by rw [tokenize_eval]; decide) (by simp)⟩

end Tavla
